import Mathlib

/-!
Verification of the cheatsheet retrieval subsystem
(`Next_lvl/advanced-search.py` and `Next_lvl/cheatsheet-manager-updates.py`).

The Python code is shallowly embedded: dictionaries holding cheatsheets
become a `Doc` structure, the nested-dict keyword taxonomy becomes an
insertion-ordered association-list tree, Python `float` similarity scores
become `ℚ`, and an exception escaping a function becomes `Except`.
Strings are modelled over their character lists; `str.lower` and the
`\w` character class are modelled at ASCII precision, which is what the
repository's data exercises.
-/

set_option maxRecDepth 20000

namespace Cheatsheets

/-- `SearchEngine._tokenize`: word characters are `[A-Za-z0-9_]` (the ASCII
reading of the regex class `\w`). -/
def isWordChar (c : Char) : Bool :=
  c.isAlpha || c.isDigit || c = '_'

/-- Python `str.lower()` at ASCII precision, over the character list (the
core `String.toLower` is extensionally the same but is defined by
well-founded recursion, which blocks kernel evaluation). -/
def strLower (s : String) : String := String.mk (s.toList.map Char.toLower)

/-- ASCII whitespace, the characters `str.split()` splits on. -/
def isSpaceChar (c : Char) : Bool :=
  c = ' ' || c = '\t' || c = '\n' || c = '\r' || c = '\x0b' || c = '\x0c'

/-- Helper for `str.split()`: split a character list on whitespace runs,
dropping empty pieces.  `acc` holds the characters of the current word in
reverse. -/
def splitWsAux : List Char → List Char → List String
  | [], acc => if acc.isEmpty then [] else [String.mk acc.reverse]
  | c :: rest, acc =>
      if isSpaceChar c then
        if acc.isEmpty then splitWsAux rest []
        else String.mk acc.reverse :: splitWsAux rest []
      else splitWsAux rest (c :: acc)

/-- `SearchEngine._tokenize(text)`: on empty input return `[]`; otherwise
lowercase, replace every character that is neither a word character nor
whitespace by a space (`re.sub(r'[^\w\s]', ' ', text.lower())`), split on
whitespace, and keep the non-empty tokens (the final comprehension's filter
is kept for fidelity although `split()` already drops empties). -/
def _tokenize (text : String) : List String :=
  if text = "" then []
  else
    let cleaned := (strLower text).toList.map
      (fun c => if !isWordChar c && !isSpaceChar c then ' ' else c)
    (splitWsAux cleaned []).filter (fun t => t ≠ "")

/-- A cheatsheet record.  The `created_at`/`updated_at` timestamps of the
Python dict are omitted: no retrieval operation reads them.  A missing
`"keyword_path"` key is `none`. -/
structure Doc where
  name : String
  content : String
  categories : List String
  keywordPath : Option (List String)
  description : String
deriving DecidableEq

/-- The nested-dict keyword taxonomy (`cheatsheets["keyword_taxonomy"]`):
a Python dict is an insertion-ordered association list, so each node is
the ordered list of its (keyword, child) entries. -/
inductive Taxonomy where
  | node : List (String × Taxonomy) → Taxonomy

/-- Entries of a taxonomy node. -/
def Taxonomy.entries : Taxonomy → List (String × Taxonomy)
  | .node cs => cs

/-- Dict lookup `current[keyword]` on a node's entry list (first match,
as in a Python dict where keys are unique). -/
def lookupChild : List (String × Taxonomy) → String → Option Taxonomy
  | [], _ => none
  | (k', v') :: rest, k => if k' = k then some v' else lookupChild rest k

/-- Dict update `current[keyword] = v` for a key already present: replace
the value in place, keeping the key's position. -/
def updateChild : List (String × Taxonomy) → String → Taxonomy → List (String × Taxonomy)
  | [], _, _ => []
  | (k', v') :: rest, k, v =>
      if k' = k then (k', v) :: rest else (k', v') :: updateChild rest k v

/-- `CheatSheetManager._ensure_keyword_path_exists`: walk the path from the
root, inserting `{}` (at the end, Python dict insertion order) for each
missing keyword, and descend. -/
def _ensure_keyword_path_exists : Taxonomy → List String → Taxonomy
  | t, [] => t
  | .node cs, k :: rest =>
      match lookupChild cs k with
      | some c => .node (updateChild cs k (_ensure_keyword_path_exists c rest))
      | none => .node (cs ++ [(k, _ensure_keyword_path_exists (.node []) rest)])

/-- A keyword path resolves to a node chain in the taxonomy. -/
def pathExists : Taxonomy → List String → Bool
  | _, [] => true
  | .node cs, k :: rest =>
      match lookupChild cs k with
      | some c => pathExists c rest
      | none => false

/-- `CheatSheetManager.get_keyword_children` with an explicit path (the
`None` default is the empty path): walk the path, returning `[]` as soon as
a keyword is missing, and list the keys of the reached node. -/
def get_keyword_children : Taxonomy → List String → List String
  | .node cs, [] => cs.map Prod.fst
  | .node cs, k :: rest =>
      match lookupChild cs k with
      | some c => get_keyword_children c rest
      | none => []

/-- `CheatSheetManager._is_prefix(prefix, full_path)`: reject when the
candidate is longer, otherwise compare positionally (the `enumerate` loop,
rendered as a `zip`, which pairs position `i` of both lists). -/
def _is_prefix (pre full : List String) : Bool :=
  if pre.length > full.length then false
  else (pre.zip full).all (fun kf => kf.2 = kf.1)

/-- The tokens `SearchEngine._create_index` contributes for one cheatsheet:
name, every category, every keyword-path segment (when the key is present),
description and content, all run through `_tokenize`. -/
def indexedTokens (cs : Doc) : List String :=
  _tokenize cs.name
    ++ cs.categories.flatMap _tokenize
    ++ (match cs.keywordPath with
        | some p => p.flatMap _tokenize
        | none => [])
    ++ _tokenize cs.description
    ++ _tokenize cs.content

/-- The inverted index of `_create_index`, represented by its lookup: the
posting list of `tok` is the set of positions `i` whose cheatsheet's indexed
fields contain `tok`.  The Python `set` has no order; ascending position
order stands in for it (no claim depends on posting order).  `tok` is a key
of the index dict iff this list is non-empty. -/
def postings (docs : List Doc) (tok : String) : List Nat :=
  (List.range docs.length).filter
    (fun i => match docs.get? i with
              | some d => decide (tok ∈ indexedTokens d)
              | none => false)

/-- The token loop of `full_text_search`: `acc` is `matching_docs`
(`none` = Python `None`); a token missing from the index aborts the whole
search (`return []`, modelled as `none`); otherwise the posting list is
copied or intersected (`&=`, rendered as a filter keeping `acc`'s order). -/
def intersectPostings (docs : List Doc) : List String → Option (List Nat) → Option (List Nat)
  | [], acc => acc
  | t :: rest, acc =>
      let ps := postings docs t
      if ps.isEmpty then none
      else
        match acc with
        | none => intersectPostings docs rest (some ps)
        | some m => intersectPostings docs rest (some (m.filter (fun i => i ∈ ps)))

/-- `CheatSheetManager.search_by_keyword_path(path, exact_match)`: keep the
cheatsheets that have a `keyword_path` and either equal the path exactly or
extend it (via ` _is_prefix`). -/
def search_by_keyword_path (docs : List Doc) (path : List String) (exactMatch : Bool) : List Doc :=
  docs.filter (fun cs =>
    match cs.keywordPath with
    | none => false
    | some cp => if exactMatch then cp = path else _is_prefix path cp)

/-- Python substring containment `needle in hay` (note `"" in s` is true). -/
def strContains (hay needle : String) : Bool :=
  decide (needle.toList <:+: hay.toList)

/-- `CheatSheetManager.search_cheatsheets(query, path)`: a truthy `path`
(non-empty list) first restricts to cheatsheets under it; then a cheatsheet
is kept when the lowercased query is a substring of its lowercased name,
any category, any keyword-path segment, description or content — the
`continue` after each hit makes the checks one disjunction per cheatsheet. -/
def search_cheatsheets (docs : List Doc) (query : String) (path : Option (List String)) : List Doc :=
  let cands := match path with
    | some p => if p.isEmpty then docs else search_by_keyword_path docs p false
    | none => docs
  let ql := strLower query
  cands.filter (fun cs =>
    strContains (strLower cs.name) ql
    || cs.categories.any (fun c => strContains (strLower c) ql)
    || (match cs.keywordPath with
        | some p => p.any (fun kw => strContains (strLower kw) ql)
        | none => false)
    || strContains (strLower cs.description) ql
    || strContains (strLower cs.content) ql)

/-- `SearchEngine.basic_search`: a wrapper around `search_cheatsheets`. -/
def basic_search (docs : List Doc) (query : String) (keywordPath : Option (List String)) : List Doc :=
  search_cheatsheets docs query keywordPath

/-- The final step of `full_text_search` (`if keyword_path:` at line 218):
when the path filter is truthy, keep only cheatsheets that have a
`keyword_path` extending it; otherwise pass the results through. -/
def keywordPathFilter (keywordPath : Option (List String)) (results : List Doc) : List Doc :=
  match keywordPath with
  | some p =>
      if p.isEmpty then results
      else results.filter (fun cs =>
        match cs.keywordPath with
        | some cp => _is_prefix p cp
        | none => false)
  | none => results

/-- `SearchEngine.full_text_search(query, keyword_path)`: tokenize (empty ⇒
`[]`), intersect posting lists with fail-fast on a missing token, map the
surviving positions back to cheatsheets, and apply the path-filter step. -/
def full_text_search (docs : List Doc) (query : String) (keywordPath : Option (List String)) : List Doc :=
  let queryTokens := _tokenize query
  if queryTokens.isEmpty then []
  else
    match intersectPostings docs queryTokens none with
    | none => []
    | some m =>
        keywordPathFilter keywordPath (m.filterMap (fun i => docs.get? i))

/-- Length of the common prefix of two character lists: the length of the
matching run starting at a given pair of positions. -/
def cpl : List Char → List Char → Nat
  | a :: as, b :: bs => if a = b then cpl as bs + 1 else 0
  | _, _ => 0

/-- `difflib.SequenceMatcher.find_longest_match` on a window (here always a
whole slice, with no junk since the inputs are short strings): the longest
matching block `(i, j, size)`, and among equal sizes the one starting
earliest in `a`, then earliest in `b` — which is what scanning start pairs
in lexicographic order with a strict-improvement update computes. -/
def flmFor (a b : List Char) : Nat × Nat × Nat :=
  ((List.range a.length).flatMap
      (fun i => (List.range b.length).map (fun j => (i, j)))).foldl
    (fun best ij =>
      let k := cpl (a.drop ij.1) (b.drop ij.2)
      if k > best.2.2 then (ij.1, ij.2, k) else best)
    (0, 0, 0)

/-- `SequenceMatcher.get_matching_blocks` total: Ratcliff–Obershelp — take
the longest matching block and recurse on the slices to its left and to its
right, summing block sizes.  Fuel-based recursion; `matchingTotal` supplies
fuel that dominates the recursion depth. -/
def matchingTotalF : Nat → List Char → List Char → Nat
  | 0, _, _ => 0
  | fuel + 1, a, b =>
      let ijk := flmFor a b
      if ijk.2.2 = 0 then 0
      else
        ijk.2.2 + matchingTotalF fuel (a.take ijk.1) (b.take ijk.2.1)
          + matchingTotalF fuel (a.drop (ijk.1 + ijk.2.2)) (b.drop (ijk.2.1 + ijk.2.2))

/-- Total size of the matching blocks between two character lists. -/
def matchingTotal (a b : List Char) : Nat :=
  matchingTotalF (a.length + b.length + 1) a b

/-- `SequenceMatcher(None, a, b).ratio()`: `2.0 * M / T` where `M` is the
total matching-block size and `T` the combined length, and `1.0` when both
strings are empty; the float is modelled as the exact rational (written
`mkRat`, the normalized fraction, which equals the field division). -/
def ratio (a b : String) : ℚ :=
  let al := a.toList
  let bl := b.toList
  if al.length + bl.length = 0 then 1
  else mkRat (2 * matchingTotal al bl) (al.length + bl.length)

/-- Insert an element into a list ordered by non-increasing `key`, placing
it before the first element whose key is not greater — so before any
equal-key element already present. -/
def insertDesc (key : α → ℚ) (x : α) : List α → List α
  | [] => [x]
  | y :: ys => if key y > key x then y :: insertDesc key x ys else x :: y :: ys

/-- CPython's `list.sort(key=..., reverse=True)`: its output is the unique
permutation of the input that is non-increasing on the key and keeps the
original relative order of equal keys (stability); this insertion sort
satisfies the same characterization, so it is extensionally the same
function. -/
def sortDesc (key : α → ℚ) : List α → List α
  | [] => []
  | x :: xs => insertDesc key x (sortDesc key xs)

/-- The per-cheatsheet score of `fuzzy_search`: the maximum of the
`SequenceMatcher` ratio between the (already lowercased) query and the
lowercased name, each lowercased category, and each lowercased keyword-path
segment (`category_similarity` and `path_similarity` start at `0`, and
`path_similarity` stays `0` without a `keyword_path` key). -/
def maxSimilarity (ql : String) (cs : Doc) : ℚ :=
  let nameSim := ratio ql (strLower cs.name)
  let catSim := cs.categories.foldl (fun acc c => max acc (ratio ql (strLower c))) 0
  let pathSim :=
    match cs.keywordPath with
    | some p => p.foldl (fun acc kw => max acc (ratio ql (strLower kw))) 0
    | none => 0
  max nameSim (max catSim pathSim)

/-- `SearchEngine.fuzzy_search(query, threshold=0.7)`: lowercase the query,
keep each cheatsheet whose maximum similarity reaches the threshold (paired
with its score), sort by score descending (stable), and return the
cheatsheets without their scores. -/
def fuzzy_search (docs : List Doc) (query : String) (threshold : ℚ) : List Doc :=
  let ql := strLower query
  let results := docs.filterMap (fun cs =>
    let m := maxSimilarity ql cs
    if m ≥ threshold then some (cs, m) else none)
  (sortDesc Prod.snd results).map Prod.fst

/-- Python `" ".join`. -/
def joinSp : List String → String
  | [] => ""
  | [s] => s
  | s :: rest => s ++ " " ++ joinSp rest

/-- `SearchEngine.semantic_search(query, keyword_path)`.

The two sklearn imports are modelled by capability flags: `sklearnFE` for
`sklearn.feature_extraction.text` (imported at line 140, *before* the
`try:`, so its failure escapes the function — modelled as `.error`) and
`sklearnMP` for `sklearn.metrics.pairwise` (imported inside the `try:`, so
its failure is caught by `except ImportError` and falls back to
`basic_search`).  The numeric TF-IDF/cosine step runs on floating point
inside sklearn and is abstracted as the parameter `sims`, which maps the
lowercased corpus and the space-joined query tokens to the per-candidate
similarity scores; the surrounding control flow — path filtering, empty
checks, corpus construction, stable descending sort of `(index, score)`
pairs and the `score > 0` cut — is translated from the source. -/
def semantic_search (sklearnFE sklearnMP : Bool)
    (sims : List String → String → List ℚ)
    (docs : List Doc) (query : String) (keywordPath : Option (List String)) :
    Except String (List Doc) :=
  let cheatsheets := match keywordPath with
    | some p => if p.isEmpty then docs else search_by_keyword_path docs p false
    | none => docs
  if cheatsheets.isEmpty then .ok []
  else
    let queryTokens := _tokenize query
    if queryTokens.isEmpty then .ok []
    else
      let corpus := cheatsheets.map (fun cs =>
        strLower (cs.name ++ " " ++ cs.name ++ " "
          ++ joinSp cs.categories ++ " "
          ++ (match cs.keywordPath with | some p => joinSp p | none => "") ++ " "
          ++ cs.description ++ " " ++ cs.content))
      if !sklearnFE then .error "ImportError: sklearn.feature_extraction.text"
      else if !sklearnMP then .ok (basic_search docs query keywordPath)
      else
        let similarityScores := (sims corpus (joinSp queryTokens)).enum
        .ok ((sortDesc Prod.snd similarityScores).filterMap
          (fun is => if is.2 > 0 then cheatsheets.get? is.1 else none))

/-- The manager's mutable state: the `"cheatsheets"` list and the
`"keyword_taxonomy"` tree (persistence is the storage collaborator's
concern and is not modelled). -/
structure ManagerState where
  cheatsheets : List Doc
  taxonomy : Taxonomy

/-- The name check of `add_cheatsheet`: `re.match(r'^[a-zA-Z0-9_-]+$', name)`. -/
def validName (s : String) : Bool :=
  s ≠ "" && s.toList.all (fun c => c.isAlpha || c.isDigit || c = '_' || c = '-')

/-- `CheatSheetManager.add_cheatsheet`: reject invalid or duplicate names
(returning `false` with the state unchanged); otherwise build the record —
the `keyword_path` key is attached and `_ensure_keyword_path_exists` run
only when the argument is truthy (a non-`None`, non-empty list) — append it
and report success. -/
def add_cheatsheet (st : ManagerState) (name content : String)
    (categories : Option (List String)) (keywordPath : Option (List String))
    (description : Option String) : Bool × ManagerState :=
  if !validName name then (false, st)
  else if st.cheatsheets.any (fun cs => cs.name = name) then (false, st)
  else
    let kp := match keywordPath with
      | some p => if p.isEmpty then none else some p
      | none => none
    let tax := match kp with
      | some p => _ensure_keyword_path_exists st.taxonomy p
      | none => st.taxonomy
    let newDoc : Doc :=
      { name := name, content := content,
        categories := categories.getD [],
        keywordPath := kp,
        description := description.getD "" }
    (true, ⟨st.cheatsheets ++ [newDoc], tax⟩)

/-- The loop of `migrate_categories_to_paths`: every cheatsheet without a
`keyword_path` but with categories gets `[default_root, categories[0]]` as
its path, the taxonomy is extended for it, and the migration counter is
incremented; the list is rebuilt in order with the taxonomy threaded
through (the Python loop mutates both in place). -/
def migrateDocs (defaultRoot : String) : List Doc → Taxonomy → List Doc × Taxonomy × Nat
  | [], tax => ([], tax, 0)
  | cs :: rest, tax =>
      match cs.keywordPath, cs.categories with
      | none, c :: _ =>
          let p := [defaultRoot, c]
          let out := migrateDocs defaultRoot rest (_ensure_keyword_path_exists tax p)
          ({ cs with keywordPath := some p } :: out.1, out.2.1, out.2.2 + 1)
      | _, _ =>
          let out := migrateDocs defaultRoot rest tax
          (cs :: out.1, out.2.1, out.2.2)

/-- `CheatSheetManager.migrate_categories_to_paths(default_root)`: run the
migration loop and return the new state with the number migrated. -/
def migrate_categories_to_paths (st : ManagerState) (defaultRoot : String) :
    ManagerState × Nat :=
  let out := migrateDocs defaultRoot st.cheatsheets st.taxonomy
  (⟨out.1, out.2.1⟩, out.2.2)

/-- The retrieval-subsystem invariant: every prefix of every document's
`keyword_path` (including the full path) resolves to a node chain in the
taxonomy. -/
def taxonomyInvariant (st : ManagerState) : Prop :=
  ∀ d ∈ st.cheatsheets, ∀ p, d.keywordPath = some p →
    ∀ q, q <+: p → pathExists st.taxonomy q = true

/-- The `git-basics` document of the spec's worked example (empty content,
description and categories; only name and path matter to the example). -/
def gitBasics : Doc := ⟨"git-basics", "", [], some ["Computers", "VCS", "Git"], ""⟩

/-- The `git-advanced` document of the spec's worked example. -/
def gitAdvanced : Doc := ⟨"git-advanced", "", [], some ["Computers", "VCS", "Git"], ""⟩

/-- The `bash-tips` document of the spec's worked example. -/
def bashTips : Doc := ⟨"bash-tips", "", [], some ["Computers", "Shell"], ""⟩

/-- The spec's example document set. -/
def exDocs : List Doc := [gitBasics, gitAdvanced, bashTips]

/-- An empty manager state (no documents, empty taxonomy). -/
def emptyState : ManagerState := ⟨[], .node []⟩

/-! ### Association-list dictionary lemmas -/

theorem lookupChild_updateChild_self {cs : List (String × Taxonomy)} {k : String}
    {c : Taxonomy} (h : lookupChild cs k = some c) (v : Taxonomy) :
    lookupChild (updateChild cs k v) k = some v := by
  induction cs with
  | nil => simp [lookupChild] at h
  | cons hd tl ih =>
      obtain ⟨k0, v0⟩ := hd
      by_cases h0 : k0 = k
      · subst h0; simp [lookupChild, updateChild]
      · simp only [lookupChild, updateChild, if_neg h0] at h ⊢
        exact ih h

theorem lookupChild_updateChild_ne {cs : List (String × Taxonomy)} {k k' : String}
    (hne : k' ≠ k) (v : Taxonomy) :
    lookupChild (updateChild cs k v) k' = lookupChild cs k' := by
  induction cs with
  | nil => simp [updateChild]
  | cons hd tl ih =>
      obtain ⟨k0, v0⟩ := hd
      by_cases h0 : k0 = k
      · subst h0
        have h1 : k0 ≠ k' := fun h => hne h.symm
        simp [lookupChild, updateChild, h1]
      · by_cases h1 : k0 = k'
        · simp [lookupChild, updateChild, h0, h1, hne]
        · simp only [lookupChild, updateChild, if_neg h0, if_neg h1]
          exact ih

theorem lookupChild_append_none {cs : List (String × Taxonomy)} {k : String}
    (h : lookupChild cs k = none) (v : Taxonomy) :
    lookupChild (cs ++ [(k, v)]) k = some v := by
  induction cs with
  | nil => simp [lookupChild]
  | cons hd tl ih =>
      obtain ⟨k0, v0⟩ := hd
      by_cases h0 : k0 = k
      · simp [lookupChild, h0] at h
      · simp only [lookupChild, if_neg h0, List.cons_append] at h ⊢
        exact ih h

theorem lookupChild_append_some {cs : List (String × Taxonomy)} {k : String}
    {c : Taxonomy} (h : lookupChild cs k = some c) (l : List (String × Taxonomy)) :
    lookupChild (cs ++ l) k = some c := by
  induction cs with
  | nil => simp [lookupChild] at h
  | cons hd tl ih =>
      obtain ⟨k0, v0⟩ := hd
      by_cases h0 : k0 = k
      · simp only [lookupChild, if_pos h0, List.cons_append] at h ⊢
        exact h
      · simp only [lookupChild, if_neg h0, List.cons_append] at h ⊢
        exact ih h

theorem updateChild_self {cs : List (String × Taxonomy)} {k : String} {v : Taxonomy}
    (h : lookupChild cs k = some v) : updateChild cs k v = cs := by
  induction cs with
  | nil => rfl
  | cons hd tl ih =>
      obtain ⟨k0, v0⟩ := hd
      by_cases h0 : k0 = k
      · simp only [lookupChild, if_pos h0] at h
        injection h with h
        simp [updateChild, h0, h]
      · simp only [lookupChild, if_neg h0] at h
        simp [updateChild, h0, ih h]

theorem updateChild_updateChild (cs : List (String × Taxonomy)) (k : String)
    (v v' : Taxonomy) : updateChild (updateChild cs k v) k v' = updateChild cs k v' := by
  induction cs with
  | nil => rfl
  | cons hd tl ih =>
      obtain ⟨k0, v0⟩ := hd
      by_cases h0 : k0 = k
      · simp [updateChild, h0]
      · simp [updateChild, h0, ih]

theorem keys_updateChild (cs : List (String × Taxonomy)) (k : String) (v : Taxonomy) :
    (updateChild cs k v).map Prod.fst = cs.map Prod.fst := by
  induction cs with
  | nil => rfl
  | cons hd tl ih =>
      obtain ⟨k0, v0⟩ := hd
      by_cases h0 : k0 = k <;> simp [updateChild, h0, ih]

theorem mem_keys_of_lookup {cs : List (String × Taxonomy)} {k : String} {c : Taxonomy}
    (h : lookupChild cs k = some c) : k ∈ cs.map Prod.fst := by
  induction cs with
  | nil => simp [lookupChild] at h
  | cons hd tl ih =>
      obtain ⟨k0, v0⟩ := hd
      by_cases h0 : k0 = k
      · simp [h0]
      · simp only [lookupChild, if_neg h0] at h
        simp [ih h]

/-! ### Taxonomy path lemmas -/

theorem ensure_nil (t : Taxonomy) : _ensure_keyword_path_exists t [] = t := by
  cases t; rfl

theorem pathExists_nil (t : Taxonomy) : pathExists t [] = true := by
  cases t; rfl

theorem pathExists_ensure (p : List String) : ∀ t : Taxonomy,
    pathExists (_ensure_keyword_path_exists t p) p = true := by
  induction p with
  | nil => intro t; rw [ensure_nil, pathExists_nil]
  | cons k rest ih =>
      intro t
      cases t with
      | node cs =>
          cases hk : lookupChild cs k with
          | some c =>
              simp only [_ensure_keyword_path_exists, hk]
              simp only [pathExists, lookupChild_updateChild_self hk _]
              exact ih _
          | none =>
              simp only [_ensure_keyword_path_exists, hk]
              simp only [pathExists, lookupChild_append_none hk _]
              exact ih _

theorem pathExists_ensure_mono (p : List String) : ∀ (t : Taxonomy) (q : List String),
    pathExists t q = true → pathExists (_ensure_keyword_path_exists t p) q = true := by
  induction p with
  | nil => intro t q h; rw [ensure_nil]; exact h
  | cons k rest ih =>
      intro t q h
      cases t with
      | node cs =>
          cases q with
          | nil => rw [pathExists_nil]
          | cons m qrest =>
              cases hm : lookupChild cs m with
              | none => rw [pathExists, hm] at h; cases h
              | some cm =>
                  rw [pathExists, hm] at h
                  cases hk : lookupChild cs k with
                  | some c =>
                      simp only [_ensure_keyword_path_exists, hk]
                      by_cases hmk : m = k
                      · subst hmk
                        rw [hm] at hk
                        injection hk with hk
                        subst hk
                        simp only [pathExists, lookupChild_updateChild_self hm _]
                        exact ih _ _ h
                      · simp only [pathExists, lookupChild_updateChild_ne hmk _, hm]
                        exact h
                  | none =>
                      simp only [_ensure_keyword_path_exists, hk]
                      simp only [pathExists, lookupChild_append_some hm _]
                      exact h

theorem pathExists_of_append (q s : List String) : ∀ t : Taxonomy,
    pathExists t (q ++ s) = true → pathExists t q = true := by
  induction q with
  | nil => intro t _; rw [pathExists_nil]
  | cons m qrest ih =>
      intro t h
      cases t with
      | node cs =>
          rw [List.cons_append] at h
          cases hm : lookupChild cs m with
          | none => rw [pathExists, hm] at h; cases h
          | some c =>
              rw [pathExists, hm] at h ⊢
              exact ih _ h

theorem pathExists_ensure_initial {q p : List String} (hq : q <+: p) (t : Taxonomy) :
    pathExists (_ensure_keyword_path_exists t p) q = true := by
  obtain ⟨s, rfl⟩ := hq
  exact pathExists_of_append q s _ (pathExists_ensure (q ++ s) t)

theorem ensure_idem (p : List String) : ∀ t : Taxonomy,
    _ensure_keyword_path_exists (_ensure_keyword_path_exists t p) p
      = _ensure_keyword_path_exists t p := by
  induction p with
  | nil => intro t; rw [ensure_nil, ensure_nil]
  | cons k rest ih =>
      intro t
      cases t with
      | node cs =>
          cases hk : lookupChild cs k with
          | some c =>
              simp only [_ensure_keyword_path_exists, hk,
                lookupChild_updateChild_self hk _]
              rw [updateChild_updateChild, ih c]
          | none =>
              simp only [_ensure_keyword_path_exists, hk,
                lookupChild_append_none hk _]
              rw [ih _, updateChild_self (lookupChild_append_none hk _)]

theorem mem_children_ensure (Q : List String) (k : String) : ∀ t : Taxonomy,
    k ∈ get_keyword_children (_ensure_keyword_path_exists t (Q ++ [k])) Q := by
  induction Q with
  | nil =>
      intro t
      cases t with
      | node cs =>
          cases hk : lookupChild cs k with
          | some c =>
              simp only [List.nil_append, _ensure_keyword_path_exists, hk]
              simp only [get_keyword_children, keys_updateChild]
              exact mem_keys_of_lookup hk
          | none =>
              simp only [List.nil_append, _ensure_keyword_path_exists, hk]
              simp [get_keyword_children]
  | cons m qrest ih =>
      intro t
      cases t with
      | node cs =>
          cases hm : lookupChild cs m with
          | some c =>
              simp only [List.cons_append, _ensure_keyword_path_exists, hm]
              simp only [get_keyword_children, lookupChild_updateChild_self hm _]
              exact ih _
          | none =>
              simp only [List.cons_append, _ensure_keyword_path_exists, hm]
              simp only [get_keyword_children, lookupChild_append_none hm _]
              exact ih _

/-! ### The `_is_prefix` characterization -/

theorem is_prefix_cons (a b : String) (pre full : List String) :
     _is_prefix (a :: pre) (b :: full) = (decide (b = a) && _is_prefix pre full) := by
  simp only [ _is_prefix, List.length_cons, gt_iff_lt, Nat.add_lt_add_iff_right,
    List.zip_cons_cons, List.all_cons]
  by_cases h : full.length < pre.length
  · simp [h]
  · simp [h]

theorem is_prefix_iff : ∀ pre full : List String,
     _is_prefix pre full = true ↔
      (pre.length ≤ full.length ∧ ∀ i < pre.length, pre.get? i = full.get? i) := by
  intro pre
  induction pre with
  | nil => intro full; simp [ _is_prefix]
  | cons a pre' ih =>
      intro full
      cases full with
      | nil => simp [ _is_prefix]
      | cons b full' =>
          rw [is_prefix_cons]
          constructor
          · intro h
            rw [Bool.and_eq_true] at h
            obtain ⟨hba, hrest⟩ := h
            obtain ⟨hlen, hpos⟩ := (ih full').mp hrest
            refine ⟨Nat.succ_le_succ hlen, ?_⟩
            intro i hi
            cases i with
            | zero => simp [of_decide_eq_true hba]
            | succ j => exact hpos j (Nat.lt_of_succ_lt_succ hi)
          · rintro ⟨hlen, hpos⟩
            have h0 : b = a := by
              have := hpos 0 (Nat.succ_pos _)
              simpa using this.symm
            rw [Bool.and_eq_true]
            refine ⟨decide_eq_true h0, (ih full').mpr ?_⟩
            refine ⟨Nat.le_of_succ_le_succ hlen, ?_⟩
            intro i hi
            exact hpos (i + 1) (Nat.succ_lt_succ hi)

/-- C6: `_is_prefix(prefix, full_path)` is true iff the candidate is empty,
or it is no longer than the full path and agrees with it positionally; in
particular the empty candidate matches everything, every path matches
itself, and a strict extension of a path never matches it. -/
theorem is_prefix_claim : ∀ (pre full p : List String) (x : String),
    ( _is_prefix pre full = true ↔
        (pre = [] ∨
          (pre.length ≤ full.length ∧ ∀ i < pre.length, pre.get? i = full.get? i)))
    ∧ _is_prefix [] full = true
    ∧ _is_prefix p p = true
    ∧ _is_prefix (p ++ [x]) p = false := by
  intro pre full p x
  refine ⟨?_, by simp [ _is_prefix], ?_, ?_⟩
  · rw [is_prefix_iff]
    constructor
    · exact fun h => Or.inr h
    · rintro (rfl | h)
      · exact ⟨Nat.zero_le _, fun i hi => absurd hi (Nat.not_lt_zero i)⟩
      · exact h
  · rw [is_prefix_iff]
    exact ⟨le_refl _, fun i _ => rfl⟩
  · have h : (p ++ [x]).length > p.length := by simp
    simp [ _is_prefix, h]

/-- C7: after `ensure_path_exists` on a non-empty path (written `Q ++ [k]`,
whose `[:-1]` is `Q` and whose last element is `k`), the last segment is
among the children listed at the parent path; and `ensure_path_exists` is
idempotent — running it again on the same path leaves the taxonomy
unchanged. -/
theorem ensure_children_roundtrip : ∀ (t : Taxonomy) (Q P : List String) (k : String),
    k ∈ get_keyword_children (_ensure_keyword_path_exists t (Q ++ [k])) Q
    ∧ _ensure_keyword_path_exists (_ensure_keyword_path_exists t P) P
        = _ensure_keyword_path_exists t P := by
  intro t Q P k
  exact ⟨mem_children_ensure Q k t, ensure_idem P t⟩

/-! ### Preservation of the taxonomy invariant (C5) -/

theorem migrateDocs_tax_mono (root : String) : ∀ (docs : List Doc) (tax : Taxonomy)
    (q : List String), pathExists tax q = true →
    pathExists (migrateDocs root docs tax).2.1 q = true := by
  intro docs
  induction docs with
  | nil => intro tax q h; exact h
  | cons cs rest ih =>
      intro tax q h
      cases hkp : cs.keywordPath with
      | some p0 =>
          simp only [migrateDocs, hkp]
          exact ih _ _ h
      | none =>
          cases hc : cs.categories with
          | nil =>
              simp only [migrateDocs, hkp, hc]
              exact ih _ _ h
          | cons c cs' =>
              simp only [migrateDocs, hkp, hc]
              exact ih _ _ (pathExists_ensure_mono _ _ _ h)

theorem migrateDocs_inv (root : String) : ∀ (docs : List Doc) (tax : Taxonomy),
    (∀ d ∈ docs, ∀ p, d.keywordPath = some p → ∀ q, q <+: p → pathExists tax q = true) →
    ∀ d ∈ (migrateDocs root docs tax).1, ∀ p, d.keywordPath = some p →
      ∀ q, q <+: p → pathExists (migrateDocs root docs tax).2.1 q = true := by
  intro docs
  induction docs with
  | nil =>
      intro tax _ d hd
      simp only [migrateDocs] at hd
      exact absurd hd (List.not_mem_nil d)
  | cons cs rest ih =>
      intro tax h d hd p hp q hq
      cases hkp : cs.keywordPath with
      | some p0 =>
          simp only [migrateDocs, hkp] at hd ⊢
          rcases List.mem_cons.mp hd with rfl | hd'
          · rw [hkp] at hp
            injection hp with hp
            subst hp
            exact migrateDocs_tax_mono root rest tax q
              (h d (List.mem_cons_self d rest) p0 hkp q hq)
          · exact ih tax (fun d' hd'' => h d' (List.mem_cons_of_mem _ hd'')) d hd' p hp q hq
      | none =>
          cases hc : cs.categories with
          | nil =>
              simp only [migrateDocs, hkp, hc] at hd ⊢
              rcases List.mem_cons.mp hd with rfl | hd'
              · rw [hkp] at hp; cases hp
              · exact ih tax (fun d' hd'' => h d' (List.mem_cons_of_mem _ hd'')) d hd' p hp q hq
          | cons c cs' =>
              simp only [migrateDocs, hkp, hc] at hd ⊢
              rcases List.mem_cons.mp hd with rfl | hd'
              · simp only [] at hp
                injection hp with hp
                subst hp
                exact migrateDocs_tax_mono root rest _ q
                  (pathExists_ensure_initial hq tax)
              · exact ih _
                  (fun d' hd'' p' hp' q' hq' =>
                    pathExists_ensure_mono _ _ _
                      (h d' (List.mem_cons_of_mem _ hd'') p' hp' q' hq'))
                  d hd' p hp q hq

/-- C5: the taxonomy invariant — every prefix of every attached
`keyword_path`, the full path included, resolves in the taxonomy — is
preserved both by `add_cheatsheet` (which calls
`_ensure_keyword_path_exists` exactly when it attaches a truthy path) and
by `migrate_categories_to_paths`. -/
theorem taxonomy_invariant_preserved :
    ∀ (st : ManagerState) (nm ct : String) (cats kwp : Option (List String))
      (desc : Option String) (root : String),
    taxonomyInvariant st →
    taxonomyInvariant (add_cheatsheet st nm ct cats kwp desc).2
    ∧ taxonomyInvariant (migrate_categories_to_paths st root).1 := by
  intro st nm ct cats kwp desc root hinv
  constructor
  · unfold add_cheatsheet
    split
    · exact hinv
    · split
      · exact hinv
      · intro d hd p hp q hq
        cases kwp with
        | none =>
            simp only [] at hd ⊢
            rcases List.mem_append.mp hd with hd' | hd'
            · exact hinv d hd' p hp q hq
            · rcases List.mem_singleton.mp hd' with rfl
              cases hp
        | some p0 =>
            by_cases hp0 : p0.isEmpty
            · simp only [hp0, if_pos] at hd ⊢
              rcases List.mem_append.mp hd with hd' | hd'
              · exact hinv d hd' p hp q hq
              · rcases List.mem_singleton.mp hd' with rfl
                cases hp
            · simp only [hp0, if_neg] at hd ⊢
              rcases List.mem_append.mp hd with hd' | hd'
              · exact pathExists_ensure_mono p0 _ q (hinv d hd' p hp q hq)
              · rcases List.mem_singleton.mp hd' with rfl
                injection hp with hp
                subst hp
                exact pathExists_ensure_initial hq _
  · unfold migrate_categories_to_paths
    intro d hd p hp q hq
    exact migrateDocs_inv root st.cheatsheets st.taxonomy hinv d hd p hp q hq

/-- C5 witness: the empty state satisfies the invariant vacuously, and both
operations applied there keep it. -/
theorem taxonomy_invariant_preserved_witness :
    taxonomyInvariant
      (add_cheatsheet emptyState "git-basics" "content" none
        (some ["Computers", "VCS", "Git"]) none).2
    ∧ taxonomyInvariant (migrate_categories_to_paths emptyState "Uncategorized").1 :=
  taxonomy_invariant_preserved emptyState "git-basics" "content" none
    (some ["Computers", "VCS", "Git"]) none "Uncategorized"
    (fun d hd => absurd hd (List.not_mem_nil d))

/-! ### Full-text search lemmas -/

theorem mem_postings {docs : List Doc} {tok : String} {i : Nat} :
    i ∈ postings docs tok ↔ ∃ d, docs.get? i = some d ∧ tok ∈ indexedTokens d := by
  unfold postings
  rw [List.mem_filter, List.mem_range]
  constructor
  · rintro ⟨hlt, hp⟩
    cases h : docs.get? i with
    | none => rw [h] at hp; cases hp
    | some d => rw [h] at hp; exact ⟨d, rfl, of_decide_eq_true hp⟩
  · rintro ⟨d, hd, ht⟩
    have hlt : i < docs.length := by
      rcases Nat.lt_or_ge i docs.length with h | h
      · exact h
      · rw [List.get?_eq_none.mpr h] at hd; cases hd
    exact ⟨hlt, by rw [hd]; exact decide_eq_true ht⟩

theorem postings_eq_nil {docs : List Doc} {tok : String}
    (h : ∀ d ∈ docs, tok ∉ indexedTokens d) : postings docs tok = [] := by
  rw [List.eq_nil_iff_forall_not_mem]
  intro i hi
  rw [mem_postings] at hi
  obtain ⟨d, hd, ht⟩ := hi
  exact h d (List.get?_mem hd) ht

theorem mem_of_keywordPathFilter {kwp : Option (List String)} {results : List Doc}
    {d : Doc} (hd : d ∈ keywordPathFilter kwp results) : d ∈ results := by
  cases kwp with
  | none => exact hd
  | some p =>
      simp only [keywordPathFilter] at hd
      by_cases hp : p.isEmpty
      · rw [if_pos hp] at hd; exact hd
      · rw [if_neg hp] at hd; exact List.mem_of_mem_filter hd

theorem intersectPostings_sound (docs : List Doc) : ∀ (toks : List String)
    (acc : Option (List Nat)) (m : List Nat),
    intersectPostings docs toks acc = some m → ∀ i ∈ m,
      (∀ t ∈ toks, i ∈ postings docs t) ∧ ∀ m0, acc = some m0 → i ∈ m0 := by
  intro toks
  induction toks with
  | nil =>
      intro acc m hm i hi
      refine ⟨fun t ht => absurd ht (List.not_mem_nil t), fun m0 h0 => ?_⟩
      simp only [intersectPostings] at hm
      rw [h0] at hm
      injection hm with hm
      exact hm ▸ hi
  | cons t rest ih =>
      intro acc m hm i hi
      simp only [intersectPostings] at hm
      by_cases hps : (postings docs t).isEmpty
      · rw [if_pos hps] at hm; cases hm
      · rw [if_neg hps] at hm
        cases acc with
        | none =>
            have hsound := ih (some (postings docs t)) m hm i hi
            refine ⟨?_, fun m0 h0 => by cases h0⟩
            intro t' ht'
            rcases List.mem_cons.mp ht' with rfl | ht''
            · exact hsound.2 _ rfl
            · exact hsound.1 t' ht''
        | some m0 =>
            have hsound := ih (some (m0.filter (fun i => i ∈ postings docs t))) m hm i hi
            have hmem := hsound.2 _ rfl
            rw [List.mem_filter] at hmem
            refine ⟨?_, fun m1 h1 => ?_⟩
            · intro t' ht'
              rcases List.mem_cons.mp ht' with rfl | ht''
              · exact of_decide_eq_true hmem.2
              · exact hsound.1 t' ht''
            · injection h1 with h1
              exact h1 ▸ hmem.1

/-- C1: every document returned by `full_text_search` for a non-empty query
comes from the document set, and its indexed fields (name, categories,
keyword-path segments, description, content, all tokenized identically)
contain every token of the tokenized query. -/
theorem full_text_search_sound : ∀ (docs : List Doc) (q : String)
    (kwp : Option (List String)) (d : Doc), q ≠ "" →
    d ∈ full_text_search docs q kwp →
    d ∈ docs ∧ ∀ tok ∈ _tokenize q, tok ∈ indexedTokens d := by
  intro docs q kwp d _ hd
  simp only [full_text_search] at hd
  by_cases hqt : (_tokenize q).isEmpty
  · rw [if_pos hqt] at hd; cases hd
  · rw [if_neg hqt] at hd
    cases hint : intersectPostings docs (_tokenize q) none with
    | none => rw [hint] at hd; cases hd
    | some m =>
        rw [hint] at hd
        have hd' : d ∈ m.filterMap (fun i => docs.get? i) :=
          mem_of_keywordPathFilter hd
        rw [List.mem_filterMap] at hd'
        obtain ⟨i, hi, hget⟩ := hd'
        have hsound := (intersectPostings_sound docs (_tokenize q) none m hint i hi).1
        refine ⟨List.get?_mem hget, fun tok htok => ?_⟩
        have hmem := hsound tok htok
        rw [mem_postings] at hmem
        obtain ⟨d', hd'', ht⟩ := hmem
        rw [hget] at hd''
        injection hd'' with hd''
        subst hd''
        exact ht

/-- C1 witness: on the example set, `git-basics` is returned for the
non-empty query `"git basics"` and indeed indexes both tokens. -/
theorem full_text_search_sound_witness :
    gitBasics ∈ exDocs ∧ ∀ tok ∈ _tokenize "git basics", tok ∈ indexedTokens gitBasics :=
  full_text_search_sound exDocs "git basics" none gitBasics (by decide) (by decide)

theorem intersectPostings_missing {docs : List Doc} {tok : String} : ∀ (toks : List String)
    (acc : Option (List Nat)), tok ∈ toks → postings docs tok = [] →
    intersectPostings docs toks acc = none := by
  intro toks
  induction toks with
  | nil => intro acc h; cases h
  | cons t rest ih =>
      intro acc htok hnil
      simp only [intersectPostings]
      rcases List.mem_cons.mp htok with rfl | htok'
      · rw [hnil]; simp
      · by_cases hps : (postings docs t).isEmpty
        · rw [if_pos hps]
        · rw [if_neg hps]
          cases acc with
          | none => exact ih _ htok' hnil
          | some m0 => exact ih _ htok' hnil

/-- C4: a query token that occurs in no document's indexed fields (so is
absent from the inverted index) makes `full_text_search` return the empty
result for the whole query. -/
theorem full_text_search_missing_token : ∀ (docs : List Doc) (q : String)
    (kwp : Option (List String)) (tok : String), tok ∈ _tokenize q →
    (∀ d ∈ docs, tok ∉ indexedTokens d) → full_text_search docs q kwp = [] := by
  intro docs q kwp tok htok habs
  have hne : ¬ (_tokenize q).isEmpty := by
    cases hq : _tokenize q with
    | nil => rw [hq] at htok; cases htok
    | cons a l => simp
  simp only [full_text_search, if_neg hne]
  rw [intersectPostings_missing (_tokenize q) none htok (postings_eq_nil habs)]

/-- C4 witness: `"zzzunknown"` is a token of the query, appears in no
example document, and the whole query returns nothing. -/
theorem full_text_search_missing_token_witness :
    ("zzzunknown" ∈ _tokenize "git zzzunknown"
      ∧ ∀ d ∈ exDocs, "zzzunknown" ∉ indexedTokens d)
    ∧ full_text_search exDocs "git zzzunknown" none = [] :=
  ⟨⟨by decide, by decide⟩,
    full_text_search_missing_token exDocs "git zzzunknown" none "zzzunknown"
      (by decide) (by decide)⟩

/-- C3 (amended): a query whose tokenization is empty yields the empty
result, without error, from `full_text_search` and `semantic_search`; the
substring strategy (`basic_search`/`search_cheatsheets`) and `fuzzy_search`
are excluded because they match the raw query string instead — in
particular the empty string is a substring of every field, so
`basic_search("")` returns the whole (path-filtered) document set. -/
theorem empty_token_query_empty_result : ∀ (docs : List Doc) (q : String)
    (kwp : Option (List String)) (fe mp : Bool)
    (sims : List String → String → List ℚ),
    _tokenize q = [] →
    full_text_search docs q kwp = []
    ∧ semantic_search fe mp sims docs q kwp = .ok [] := by
  intro docs q kwp fe mp sims hq
  constructor
  · simp [full_text_search, hq]
  · simp [semantic_search, hq]

/-- C3 counterexample: the empty query tokenizes to nothing, yet the
substring strategy returns every document of the example set. -/
theorem basic_search_empty_query_counterexample :
    _tokenize "" = [] ∧ basic_search exDocs "" none = exDocs ∧ exDocs ≠ [] :=
  ⟨by decide, by decide, by decide⟩

/-- C3 witness: a punctuation-only query tokenizes to nothing and the two
token-based strategies return empty results. -/
theorem empty_token_query_empty_result_witness :
    _tokenize "!!!" = []
    ∧ full_text_search exDocs "!!!" none = []
    ∧ semantic_search true true (fun _ _ => []) exDocs "!!!" none = .ok [] :=
  ⟨by decide,
    empty_token_query_empty_result exDocs "!!!" none true true (fun _ _ => []) (by decide)⟩

/-- C10: an empty-list keyword-path filter is falsy in Python, so
`basic_search`, `full_text_search` and `semantic_search` treat it exactly
as no filter at all (documents without a `keyword_path` included). -/
theorem empty_path_filter_neutral : ∀ (docs : List Doc) (q : String) (fe mp : Bool)
    (sims : List String → String → List ℚ),
    basic_search docs q (some []) = basic_search docs q none
    ∧ full_text_search docs q (some []) = full_text_search docs q none
    ∧ semantic_search fe mp sims docs q (some []) = semantic_search fe mp sims docs q none := by
  intro docs q fe mp sims
  refine ⟨rfl, ?_, rfl⟩
  simp only [full_text_search]
  by_cases hqt : (_tokenize q).isEmpty
  · simp only [if_pos hqt]
  · simp only [if_neg hqt]
    cases hint : intersectPostings docs (_tokenize q) none with
    | none => rfl
    | some m => rfl

/-- C2 (code bug): for any TF-IDF scorer, when sklearn is unavailable
`semantic_search` on a non-empty query over the example set escapes with
the ImportError of the line-140 import, which sits before the `try:` —
instead of the documented fallback, which would have been the non-empty
`basic_search` result shown in the second conjunct. -/
theorem semantic_search_import_bug : ∀ sims : List String → String → List ℚ,
    semantic_search false false sims exDocs "git" none
      = .error "ImportError: sklearn.feature_extraction.text"
    ∧ basic_search exDocs "git" none = [gitBasics, gitAdvanced] := by
  intro sims
  exact ⟨rfl, by decide⟩

/-! ### Stable descending sort lemmas -/

theorem mem_insertDesc {α : Type _} (key : α → ℚ) (x : α) :
    ∀ (l : List α) (y : α), y ∈ insertDesc key x l ↔ y = x ∨ y ∈ l := by
  intro l
  induction l with
  | nil => intro y; simp [insertDesc]
  | cons z zs ih =>
      intro y
      simp only [insertDesc]
      by_cases h : key z > key x
      · rw [if_pos h, List.mem_cons, ih, List.mem_cons]
        tauto
      · rw [if_neg h, List.mem_cons, List.mem_cons]

theorem mem_sortDesc {α : Type _} (key : α → ℚ) :
    ∀ (l : List α) (y : α), y ∈ sortDesc key l ↔ y ∈ l := by
  intro l
  induction l with
  | nil => intro y; simp [sortDesc]
  | cons x xs ih =>
      intro y
      simp only [sortDesc]
      rw [mem_insertDesc, ih, List.mem_cons]

theorem insertDesc_pairwise {α : Type _} (key : α → ℚ) (x : α) :
    ∀ l : List α, l.Pairwise (fun a b => key a ≥ key b) →
    (insertDesc key x l).Pairwise (fun a b => key a ≥ key b) := by
  intro l
  induction l with
  | nil => intro _; simp [insertDesc]
  | cons z zs ih =>
      intro hp
      rw [List.pairwise_cons] at hp
      obtain ⟨hz, hzs⟩ := hp
      simp only [insertDesc]
      by_cases h : key z > key x
      · rw [if_pos h, List.pairwise_cons]
        refine ⟨?_, ih hzs⟩
        intro y hy
        rw [mem_insertDesc] at hy
        rcases hy with rfl | hy
        · exact le_of_lt h
        · exact hz y hy
      · rw [if_neg h, List.pairwise_cons]
        refine ⟨?_, List.pairwise_cons.mpr ⟨hz, hzs⟩⟩
        intro y hy
        rcases List.mem_cons.mp hy with rfl | hy
        · exact le_of_not_lt h
        · exact le_trans (hz y hy) (le_of_not_lt h)

theorem sortDesc_pairwise {α : Type _} (key : α → ℚ) :
    ∀ l : List α, (sortDesc key l).Pairwise (fun a b => key a ≥ key b) := by
  intro l
  induction l with
  | nil => simp [sortDesc]
  | cons x xs ih =>
      simp only [sortDesc]
      exact insertDesc_pairwise key x _ ih

theorem filter_insertDesc {α : Type _} (key : α → ℚ) (x : α) (s : ℚ) :
    ∀ l : List α,
    (insertDesc key x l).filter (fun y => decide (key y = s))
      = if key x = s then x :: l.filter (fun y => decide (key y = s))
        else l.filter (fun y => decide (key y = s)) := by
  intro l
  induction l with
  | nil =>
      by_cases h : key x = s
      · simp [insertDesc, h]
      · simp [insertDesc, h]
  | cons z zs ih =>
      simp only [insertDesc]
      by_cases h : key z > key x
      · rw [if_pos h, List.filter_cons, ih]
        by_cases hz : key z = s
        · by_cases hx : key x = s
          · exact absurd (hz.trans hx.symm) (ne_of_gt h)
          · simp [hz, hx, List.filter_cons]
        · by_cases hx : key x = s
          · simp [hz, hx, List.filter_cons]
          · simp [hz, hx, List.filter_cons]
      · rw [if_neg h, List.filter_cons, List.filter_cons]
        by_cases hx : key x = s
        · simp [hx, List.filter_cons]
        · simp [hx, List.filter_cons]

theorem filter_sortDesc {α : Type _} (key : α → ℚ) (s : ℚ) :
    ∀ l : List α,
    (sortDesc key l).filter (fun y => decide (key y = s))
      = l.filter (fun y => decide (key y = s)) := by
  intro l
  induction l with
  | nil => rfl
  | cons x xs ih =>
      simp only [sortDesc]
      rw [filter_insertDesc, ih, List.filter_cons]
      by_cases h : key x = s
      · simp [h]
      · simp [h]

/-! ### Facts about sorting score-tagged elements -/

theorem sorted_scores_of_pairs {α : Type _} (f : α → ℚ) (base : List α) :
    (((sortDesc Prod.snd (base.map (fun a => (a, f a)))).map Prod.fst).map f).Pairwise
      (fun a b => a ≥ b) := by
  rw [List.map_map, List.pairwise_map]
  have hsorted := sortDesc_pairwise (Prod.snd (α := α) (β := ℚ))
    (base.map (fun a => (a, f a)))
  refine hsorted.imp_of_mem ?_
  intro p q hp hq hpq
  rw [mem_sortDesc] at hp hq
  obtain ⟨a, _, rfl⟩ := List.mem_map.mp hp
  obtain ⟨b, _, rfl⟩ := List.mem_map.mp hq
  simpa using hpq

theorem filter_sorted_pairs {α : Type _} (f : α → ℚ) (base : List α) (s : ℚ) :
    ((sortDesc Prod.snd (base.map (fun a => (a, f a)))).map Prod.fst).filter
        (fun a => decide (f a = s))
      = base.filter (fun a => decide (f a = s)) := by
  rw [List.filter_map]
  have hcongr : (sortDesc Prod.snd (base.map (fun a => (a, f a)))).filter
        ((fun a => decide (f a = s)) ∘ Prod.fst)
      = (sortDesc Prod.snd (base.map (fun a => (a, f a)))).filter
        (fun p => decide (p.2 = s)) := by
    apply List.filter_congr
    intro p hp
    rw [mem_sortDesc] at hp
    obtain ⟨a, _, rfl⟩ := List.mem_map.mp hp
    simp
  rw [hcongr, filter_sortDesc, List.filter_map]
  have hcongr2 : (base.filter ((fun p : α × ℚ => decide (p.2 = s)) ∘ (fun a => (a, f a))))
      = base.filter (fun a => decide (f a = s)) := by
    apply List.filter_congr
    intro a _
    simp
  rw [hcongr2, List.map_map]
  have : (Prod.fst ∘ fun a : α => (a, f a)) = id := rfl
  rw [this, List.map_id]

theorem fuzzy_pairs_eq (docs : List Doc) (ql : String) (t : ℚ) :
    (docs.filterMap (fun cs =>
        let m := maxSimilarity ql cs
        if m ≥ t then some (cs, m) else none))
      = (docs.filter (fun cs => decide (maxSimilarity ql cs ≥ t))).map
          (fun cs => (cs, maxSimilarity ql cs)) := by
  induction docs with
  | nil => rfl
  | cons cs rest ih =>
      simp only [List.filterMap_cons, List.filter_cons]
      by_cases h : maxSimilarity ql cs ≥ t
      · simp [h, ih]
      · simp [h, ih]

/-- C8: `fuzzy_search` returns exactly the documents whose maximum
similarity — over lowercased name, categories and keyword-path segments,
computed against the lowercased query — reaches the threshold: for every
score value the returned documents with that score are precisely the
qualifying documents with that score in their original enumeration order
(so ties are stable), and the score sequence of the returned list is
monotonically non-increasing. -/
theorem fuzzy_search_spec : ∀ (docs : List Doc) (q : String) (t : ℚ),
    (∀ s : ℚ, (fuzzy_search docs q t).filter
        (fun d => decide (maxSimilarity (strLower q) d = s))
      = (docs.filter (fun d => decide (maxSimilarity (strLower q) d ≥ t))).filter
          (fun d => decide (maxSimilarity (strLower q) d = s)))
    ∧ ((fuzzy_search docs q t).map (fun d => maxSimilarity (strLower q) d)).Pairwise
        (fun a b => a ≥ b) := by
  intro docs q t
  have hview : fuzzy_search docs q t
      = (sortDesc Prod.snd
          ((docs.filter (fun cs => decide (maxSimilarity (strLower q) cs ≥ t))).map
            (fun cs => (cs, maxSimilarity (strLower q) cs)))).map Prod.fst := by
    simp only [fuzzy_search, fuzzy_pairs_eq]
  constructor
  · intro s
    rw [hview, filter_sorted_pairs]
  · rw [hview]
    exact sorted_scores_of_pairs _ _

/-- C9 counterexample: on the example set, `fuzzy_search("gti", 0.7)` does
not surface `git-basics` (the claim says it returns both git documents). -/
theorem fuzzy_gti_counterexample :
    gitBasics ∉ fuzzy_search exDocs "gti" (mkRat 7 10) := by decide

/-- C9 (amended): on the example set `fuzzy_search("gti")` returns the
empty result at threshold `0.7` as well as at `0.95`: the best similarity
either git document reaches is `SequenceMatcher("gti", "git").ratio() =
2/3`, which is below `0.7`. -/
theorem fuzzy_gti_behaviour :
    fuzzy_search exDocs "gti" (mkRat 7 10) = []
    ∧ fuzzy_search exDocs "gti" (mkRat 19 20) = []
    ∧ maxSimilarity "gti" gitBasics = mkRat 2 3
    ∧ maxSimilarity "gti" gitAdvanced = mkRat 2 3 :=
  ⟨by decide, by decide, by decide, by decide⟩

end Cheatsheets
